import Mathlib

/-!
Verification of the verb-grouping algorithm of
`actstream/templatetags/activity_tags.py`.

The only non-trivial algorithm in the repository is `group_verbs`:

```python
def group_verbs(actions, aggressiveness=0):
    verbs = []
    groups = {}
    for action in actions:
        if action.verb not in verbs:
            if len(verbs) > aggressiveness:
                verb = verbs.pop(0)
                yield (verb, groups.pop(verb))
            verbs.append(action.verb)
        groups.setdefault(action.verb, []).append(action)
    for verb in verbs:
        yield (verb, groups[verb])
```

We embed it shallowly: actions are records carrying a `verb` string and a
numeric identity, the generator is modelled as an eager function producing
the full list of yielded groups, and the partial operations of the Python
code (`list.pop(0)` on an empty list, `dict.pop`/`dict[...]` on a missing
key) are modelled in the `Except` monad with explicit error values.
-/

namespace Actstream

/-- A verb is a string label, as in the Python source (`action.verb`). -/
abbrev Verb := String

/-- An action record: the grouper only reads `.verb`; `uid` stands for the
rest of the opaque Python object and makes distinct actions distinguishable. -/
structure Action where
  verb : Verb
  uid : Nat
deriving DecidableEq, Repr

/-- A yielded group: `(verb, list of actions)`, as the generator yields. -/
abbrev Group := Verb × List Action

/-- Runtime errors the Python code can raise while the generator runs,
plus the error name the specification asks for.
`indexError` models `verbs.pop(0)` on an empty list;
`keyError` models `groups.pop(verb)` / `groups[verb]` on a missing key;
`invalidArgument` is the specification's named validation error, which the
source never raises (it performs no argument validation). -/
inductive PyErr where
  | indexError
  | keyError
  | invalidArgument
deriving DecidableEq, Repr

/-- The loop state of `group_verbs`: the `verbs` list of currently open
verbs (in order of opening) and the `groups` dict from verb to its buffered
actions (`none` = key absent). -/
structure GState where
  verbs : List Verb
  groups : Verb → Option (List Action)

/-- `groups.setdefault(k, []).append(x)`: ensure key `k` is present
(defaulting to `[]`) and append `x` to its list. -/
def dictInsertAppend (g : Verb → Option (List Action)) (k : Verb) (x : Action) :
    Verb → Option (List Action) :=
  fun k' => if k' = k then some ((g k).getD [] ++ [x]) else g k'

/-- Removal of key `k` from the dict, the state change of `groups.pop(k)`. -/
def dictRemove (g : Verb → Option (List Action)) (k : Verb) :
    Verb → Option (List Action) :=
  fun k' => if k' = k then none else g k'

/-- The flush branch of the loop body: if `len(verbs) > aggressiveness`,
pop the oldest open verb and yield its buffer.  `verbs.pop(0)` on an empty
list is an `IndexError`; a missing dict key is a `KeyError`. -/
def flushOldest (aggressiveness : Int) (s : GState) :
    Except PyErr (List Group × GState) :=
  if (s.verbs.length : Int) > aggressiveness then
    match s.verbs with
    | [] => .error PyErr.indexError
    | v :: rest =>
      match s.groups v with
      | none => .error PyErr.keyError
      | some buf => .ok ([(v, buf)], ⟨rest, dictRemove s.groups v⟩)
  else
    .ok ([], s)

/-- One iteration of the `for action in actions` loop: flush-and-open when
the verb is new, then append the action to its verb's buffer. -/
def step (aggressiveness : Int) (s : GState) (action : Action) :
    Except PyErr (List Group × GState) :=
  if action.verb ∈ s.verbs then
    .ok ([], ⟨s.verbs, dictInsertAppend s.groups action.verb action⟩)
  else
    match flushOldest aggressiveness s with
    | .error e => .error e
    | .ok (out, s1) =>
      .ok (out, ⟨s1.verbs ++ [action.verb],
                 dictInsertAppend s1.groups action.verb action⟩)

/-- The main loop over the input actions, accumulating yielded groups. -/
def runLoop (aggressiveness : Int) :
    List Action → GState → Except PyErr (List Group × GState)
  | [], s => .ok ([], s)
  | x :: xs, s =>
    match step aggressiveness s x with
    | .error e => .error e
    | .ok (out1, s1) =>
      match runLoop aggressiveness xs s1 with
      | .error e => .error e
      | .ok (out2, s2) => .ok (out1 ++ out2, s2)

/-- The trailing `for verb in verbs: yield (verb, groups[verb])` loop;
`groups[verb]` on a missing key is a `KeyError`. -/
def finalFlush (g : Verb → Option (List Action)) :
    List Verb → Except PyErr (List Group)
  | [] => .ok []
  | v :: vs =>
    match g v with
    | none => .error PyErr.keyError
    | some buf =>
      match finalFlush g vs with
      | .error e => .error e
      | .ok rest => .ok ((v, buf) :: rest)

/-- The initial state: `verbs = []`, `groups = {}`. -/
def initState : GState := ⟨[], fun _ => none⟩

/-- Full consumption of the generator from loop state `s`: run the remaining
`for action in actions` loop, then the trailing flush loop. -/
def consume (aggressiveness : Int) (acts : List Action) (s : GState) :
    Except PyErr (List Group) :=
  match runLoop aggressiveness acts s with
  | .error e => .error e
  | .ok (out, s1) =>
    match finalFlush s1.groups s1.verbs with
    | .error e => .error e
    | .ok fin => .ok (out ++ fin)

/-- `group_verbs(actions, aggressiveness)`, fully consumed: the list of all
yielded `(verb, actions)` groups, or the runtime error the generator raises. -/
def group_verbs (actions : List Action) (aggressiveness : Int) :
    Except PyErr (List Group) :=
  consume aggressiveness actions initState

/-- The list of maximal contiguous runs of equal verbs, read left to right
with current run verb `v` and buffer `buf`. -/
def runsFrom (v : Verb) (buf : List Action) : List Action → List Group
  | [] => [(v, buf)]
  | x :: xs =>
    if x.verb = v then runsFrom v (buf ++ [x]) xs
    else (v, buf) :: runsFrom x.verb [x] xs

/-- The maximal contiguous runs of equal verbs of an action list. -/
def verbRuns : List Action → List Group
  | [] => []
  | x :: xs => runsFrom x.verb [x] xs

/-- The distinct verbs of the input in order of first appearance, starting
from an already-seen list `vs`. -/
def verbOrderFrom (vs : List Verb) : List Action → List Verb
  | [] => vs
  | x :: xs =>
    verbOrderFrom (if x.verb ∈ vs then vs else vs ++ [x.verb]) xs

/-- The distinct verbs of the input in order of first appearance. -/
def verbOrder (actions : List Action) : List Verb :=
  verbOrderFrom [] actions

/-- The concatenation of the action lists of a list of groups, in emission
order. -/
def groupActions (gs : List Group) : List Action :=
  gs.flatMap Prod.snd

/-- The actions of a list that carry verb `v`, keeping their relative order. -/
def withVerb (v : Verb) (acts : List Action) : List Action :=
  acts.filter (fun x => x.verb = v)

/-- The loop invariant of `group_verbs` relating the processed input prefix
`pre`, the groups `out` yielded so far and the loop state `s`:
the open-verb list has no duplicates, the dict keys are exactly the open
verbs, every buffer is non-empty and homogeneous, every yielded group is
non-empty and homogeneous, per verb the yielded actions followed by the
pending buffer are exactly the processed actions of that verb in order,
and at most `aggressiveness + 1` verbs are open. -/
structure Inv (a : Int) (pre : List Action) (out : List Group) (s : GState) :
    Prop where
  nodup : s.verbs.Nodup
  keys : ∀ v : Verb, (s.groups v).isSome = true ↔ v ∈ s.verbs
  bufs : ∀ v buf, s.groups v = some buf → buf ≠ [] ∧ ∀ x ∈ buf, x.verb = v
  outs : ∀ p ∈ out, p.2 ≠ [] ∧ ∀ x ∈ p.2, x.verb = p.1
  order : ∀ v : Verb,
    withVerb v (groupActions out) ++ (s.groups v).getD [] = withVerb v pre
  bound : (s.verbs.length : Int) ≤ a + 1

-- Concrete actions for the documented examples.

/-- `<post 1>` of the docstring example. -/
def post1 : Action := ⟨"post", 1⟩

/-- `<update 1>` of the docstring example. -/
def update1 : Action := ⟨"update", 1⟩

/-- `<update 2>` of the docstring example. -/
def update2 : Action := ⟨"update", 2⟩

/-- `<remove 1>` of the docstring example. -/
def remove1 : Action := ⟨"remove", 1⟩

/-- `<update 3>` of the docstring example. -/
def update3 : Action := ⟨"update", 3⟩

/-- `<remove 2>` of the docstring example. -/
def remove2 : Action := ⟨"remove", 2⟩

/-- `<share 1>` of the docstring example. -/
def share1 : Action := ⟨"share", 1⟩

/-- `<update 4>` of the docstring example. -/
def update4 : Action := ⟨"update", 4⟩

/-- `<share 2>` of the docstring example. -/
def share2 : Action := ⟨"share", 2⟩

/-- The 9-action input of the `display_grouped_actions` docstring. -/
def exampleNine : List Action :=
  [post1, update1, update2, remove1, update3, remove2, share1, update4, share2]

/-! ### Pointwise evaluation of the dict operations -/

theorem dictInsertAppend_same (g : Verb → Option (List Action)) (k : Verb)
    (x : Action) : dictInsertAppend g k x k = some ((g k).getD [] ++ [x]) := by
  simp [dictInsertAppend]

theorem dictInsertAppend_ne (g : Verb → Option (List Action)) (k : Verb)
    (x : Action) (k' : Verb) (h : k' ≠ k) : dictInsertAppend g k x k' = g k' := by
  simp [dictInsertAppend, h]

theorem dictRemove_same (g : Verb → Option (List Action)) (k : Verb) :
    dictRemove g k k = none := by
  simp [dictRemove]

theorem dictRemove_ne (g : Verb → Option (List Action)) (k k' : Verb)
    (h : k' ≠ k) : dictRemove g k k' = g k' := by
  simp [dictRemove, h]

/-! ### Unfolding lemmas for `consume` -/

theorem consume_nil (a : Int) (s : GState) :
    consume a [] s = finalFlush s.groups s.verbs := by
  unfold consume runLoop
  cases h : finalFlush s.groups s.verbs <;> simp [h]

theorem consume_cons (a : Int) (x : Action) (xs : List Action) (s : GState) :
    consume a (x :: xs) s =
      match step a s x with
      | .error e => .error e
      | .ok (o1, s1) => Except.map (fun l => o1 ++ l) (consume a xs s1) := by
  cases hs : step a s x with
  | error e => simp [consume, runLoop, hs]
  | ok p =>
    obtain ⟨o1, s1⟩ := p
    simp only [consume, runLoop, hs]
    cases hr : runLoop a xs s1 with
    | error e => simp [Except.map]
    | ok q =>
      obtain ⟨o2, s2⟩ := q
      cases hf : finalFlush s2.groups s2.verbs with
      | error e => simp [hf, Except.map]
      | ok fin => simp [hf, Except.map, List.append_assoc]

/-! ### Aggressiveness 0 produces the maximal contiguous runs -/

theorem consume_zero_runs (acts : List Action) :
    ∀ (v : Verb) (buf : List Action) (g : Verb → Option (List Action)),
      g v = some buf → (∀ k, k ≠ v → g k = none) →
      consume 0 acts ⟨[v], g⟩ = .ok (runsFrom v buf acts) := by
  induction acts with
  | nil =>
    intro v buf g hv _
    simp [consume_nil, finalFlush, hv, runsFrom]
  | cons x xs ih =>
    intro v buf g hv hrest
    rw [consume_cons]
    by_cases hx : x.verb = v
    · have hstep : step 0 ⟨[v], g⟩ x =
          .ok ([], ⟨[v], dictInsertAppend g x.verb x⟩) := by
        simp [step, hx]
      rw [hstep]
      have h1 : dictInsertAppend g x.verb x v = some (buf ++ [x]) := by
        rw [hx, dictInsertAppend_same, hv]
        rfl
      have h2 : ∀ k, k ≠ v → dictInsertAppend g x.verb x k = none := by
        intro k hk
        rw [dictInsertAppend_ne g x.verb x k (by rw [hx]; exact hk)]
        exact hrest k hk
      dsimp only
      rw [ih v (buf ++ [x]) _ h1 h2]
      simp [runsFrom, hx, Except.map]
    · have hstep : step 0 ⟨[v], g⟩ x =
          .ok ([(v, buf)],
               ⟨[x.verb], dictInsertAppend (dictRemove g v) x.verb x⟩) := by
        simp [step, flushOldest, hx, hv]
      rw [hstep]
      have h1 : dictInsertAppend (dictRemove g v) x.verb x x.verb = some [x] := by
        rw [dictInsertAppend_same, dictRemove_ne g v x.verb hx, hrest x.verb hx]
        rfl
      have h2 : ∀ k, k ≠ x.verb →
          dictInsertAppend (dictRemove g v) x.verb x k = none := by
        intro k hk
        rw [dictInsertAppend_ne _ _ _ k hk]
        by_cases hkv : k = v
        · rw [hkv, dictRemove_same]
        · rw [dictRemove_ne g v k hkv]
          exact hrest k hkv
      dsimp only
      rw [ih x.verb [x] _ h1 h2]
      simp [runsFrom, hx, Except.map]

/-! ### Helper lemmas about `withVerb` and `groupActions` -/

theorem withVerb_append (v : Verb) (l1 l2 : List Action) :
    withVerb v (l1 ++ l2) = withVerb v l1 ++ withVerb v l2 :=
  List.filter_append _ _

theorem withVerb_all (v : Verb) (l : List Action) (h : ∀ x ∈ l, x.verb = v) :
    withVerb v l = l :=
  List.filter_eq_self.mpr (by simpa using h)

theorem withVerb_nothing (v : Verb) (l : List Action)
    (h : ∀ x ∈ l, x.verb ≠ v) : withVerb v l = [] :=
  List.filter_eq_nil_iff.mpr (by simpa using h)

theorem withVerb_singleton_self (x : Action) : withVerb x.verb [x] = [x] := by
  simp [withVerb]

theorem withVerb_singleton_ne (v : Verb) (x : Action) (h : x.verb ≠ v) :
    withVerb v [x] = [] := by
  simp [withVerb, h]

theorem groupActions_append (g1 g2 : List Group) :
    groupActions (g1 ++ g2) = groupActions g1 ++ groupActions g2 := by
  simp [groupActions]

theorem groupActions_single (v : Verb) (buf : List Action) :
    groupActions [(v, buf)] = buf := by
  simp [groupActions]

/-! ### The loop invariant holds initially and is preserved by `step` -/

theorem inv_init (a : Int) (ha : 0 ≤ a) : Inv a [] [] initState := by
  refine ⟨List.nodup_nil, ?_, ?_, ?_, ?_, ?_⟩
  · intro v
    simp [initState]
  · intro v buf hbuf
    simp [initState] at hbuf
  · intro p hp
    simp at hp
  · intro v
    simp [initState, withVerb, groupActions]
  · simp [initState]
    omega

theorem step_inv (a : Int) (ha : 0 ≤ a) (pre : List Action) (out : List Group)
    (s : GState) (x : Action) (hinv : Inv a pre out s) :
    ∃ o1 s1, step a s x = .ok (o1, s1) ∧ Inv a (pre ++ [x]) (out ++ o1) s1 := by
  obtain ⟨verbs, groups⟩ := s
  have hnd : verbs.Nodup := hinv.nodup
  have hkeys : ∀ v : Verb, (groups v).isSome = true ↔ v ∈ verbs := hinv.keys
  have hbufs : ∀ v buf, groups v = some buf →
      buf ≠ [] ∧ ∀ y ∈ buf, y.verb = v := hinv.bufs
  have houts : ∀ p ∈ out, p.2 ≠ [] ∧ ∀ y ∈ p.2, y.verb = p.1 := hinv.outs
  have horder : ∀ v : Verb,
      withVerb v (groupActions out) ++ (groups v).getD [] = withVerb v pre :=
    hinv.order
  have hbound : (verbs.length : Int) ≤ a + 1 := hinv.bound
  by_cases hmem : x.verb ∈ verbs
  · -- the verb is already open: append to its buffer
    obtain ⟨oldbuf, holdb⟩ := Option.isSome_iff_exists.mp ((hkeys x.verb).mpr hmem)
    obtain ⟨holdne, holdhom⟩ := hbufs x.verb oldbuf holdb
    have hgetd : (dictInsertAppend groups x.verb x x.verb).getD []
        = oldbuf ++ [x] := by
      simp [dictInsertAppend_same, holdb]
    refine ⟨[], ⟨verbs, dictInsertAppend groups x.verb x⟩,
      by simp [step, hmem], ?_⟩
    rw [List.append_nil]
    have hkeys2 : ∀ v : Verb,
        ((dictInsertAppend groups x.verb x) v).isSome = true ↔ v ∈ verbs := by
      intro v
      by_cases hv : v = x.verb
      · subst hv
        simp only [dictInsertAppend_same]
        simpa using hmem
      · rw [dictInsertAppend_ne groups x.verb x v hv]
        exact hkeys v
    have hbufs2 : ∀ v buf, (dictInsertAppend groups x.verb x) v = some buf →
        buf ≠ [] ∧ ∀ y ∈ buf, y.verb = v := by
      intro v buf hbuf
      by_cases hv : v = x.verb
      · subst hv
        rw [dictInsertAppend_same, holdb] at hbuf
        simp only [Option.getD_some, Option.some.injEq] at hbuf
        subst hbuf
        refine ⟨by simp, ?_⟩
        intro y hy
        rcases List.mem_append.mp hy with h | h
        · exact holdhom y h
        · simp at h
          rw [h]
      · rw [dictInsertAppend_ne groups x.verb x v hv] at hbuf
        exact hbufs v buf hbuf
    have horder2 : ∀ v : Verb,
        withVerb v (groupActions out) ++
          ((dictInsertAppend groups x.verb x) v).getD [] =
        withVerb v (pre ++ [x]) := by
      intro v
      rw [withVerb_append]
      by_cases hv : v = x.verb
      · subst hv
        have ho := horder x.verb
        rw [holdb] at ho
        simp only [Option.getD_some] at ho
        rw [hgetd, withVerb_singleton_self, ← List.append_assoc, ho]
      · rw [dictInsertAppend_ne groups x.verb x v hv,
          withVerb_singleton_ne v x (fun hh => hv hh.symm), List.append_nil]
        exact horder v
    exact ⟨hnd, hkeys2, hbufs2, houts, horder2, hbound⟩
  · by_cases hflush : (verbs.length : Int) > a
    · -- fresh verb and too many open verbs: flush the oldest, then open
      obtain ⟨v0, rest, rfl⟩ : ∃ v0 rest, verbs = v0 :: rest := by
        cases verbs with
        | nil =>
          exfalso
          simp at hflush
          omega
        | cons v0 rest => exact ⟨v0, rest, rfl⟩
      obtain ⟨buf0, hbuf0⟩ := Option.isSome_iff_exists.mp ((hkeys v0).mpr (by simp))
      obtain ⟨hbuf0ne, hbuf0hom⟩ := hbufs v0 buf0 hbuf0
      have hx0 : x.verb ≠ v0 := by
        intro h
        apply hmem
        rw [h]
        exact List.mem_cons_self v0 rest
      have hv0x : v0 ≠ x.verb := Ne.symm hx0
      have hxrest : x.verb ∉ rest := fun h => hmem (List.mem_cons_of_mem v0 h)
      have hv0rest : v0 ∉ rest := (List.nodup_cons.mp hnd).1
      have hrestnd : rest.Nodup := (List.nodup_cons.mp hnd).2
      have hgx : groups x.verb = none := by
        by_cases h : (groups x.verb).isSome = true
        · exact absurd ((hkeys x.verb).mp h) hmem
        · exact Option.not_isSome_iff_eq_none.mp h
      have hflush2 : a < (rest.length : Int) + 1 := by
        simp only [List.length_cons] at hflush
        push_cast at hflush
        omega
      have hstep : step a ⟨v0 :: rest, groups⟩ x =
          .ok ([(v0, buf0)],
               ⟨rest ++ [x.verb],
                dictInsertAppend (dictRemove groups v0) x.verb x⟩) := by
        simp [step, hmem, flushOldest, hbuf0, hflush2]
      have hgetd : (dictInsertAppend (dictRemove groups v0) x.verb x
          x.verb).getD [] = [x] := by
        simp [dictInsertAppend_same, dictRemove_ne _ _ _ hx0, hgx]
      refine ⟨[(v0, buf0)],
        ⟨rest ++ [x.verb], dictInsertAppend (dictRemove groups v0) x.verb x⟩,
        hstep, ?_⟩
      have hnd2 : (rest ++ [x.verb]).Nodup := by
        rw [List.nodup_append]
        exact ⟨hrestnd, List.nodup_singleton _,
          fun b hb hb' => hxrest ((List.mem_singleton.mp hb') ▸ hb)⟩
      have hkeys2 : ∀ v : Verb,
          ((dictInsertAppend (dictRemove groups v0) x.verb x) v).isSome = true ↔
            v ∈ rest ++ [x.verb] := by
        intro v
        by_cases hvx : v = x.verb
        · subst hvx
          simp [dictInsertAppend_same]
        · rw [dictInsertAppend_ne _ _ _ v hvx]
          by_cases hvv0 : v = v0
          · subst hvv0
            rw [dictRemove_same]
            simp [hv0rest, hv0x]
          · rw [dictRemove_ne _ _ _ hvv0, hkeys v]
            simp [List.mem_cons, hvv0, hvx]
      have hbufs2 : ∀ v buf,
          (dictInsertAppend (dictRemove groups v0) x.verb x) v = some buf →
            buf ≠ [] ∧ ∀ y ∈ buf, y.verb = v := by
        intro v buf hbuf
        by_cases hvx : v = x.verb
        · subst hvx
          rw [dictInsertAppend_same, dictRemove_ne _ _ _ hx0, hgx] at hbuf
          simp only [Option.getD_none, List.nil_append,
            Option.some.injEq] at hbuf
          subst hbuf
          refine ⟨by simp, ?_⟩
          intro y hy
          simp at hy
          rw [hy]
        · rw [dictInsertAppend_ne _ _ _ v hvx] at hbuf
          by_cases hvv0 : v = v0
          · subst hvv0
            rw [dictRemove_same] at hbuf
            exact Option.noConfusion hbuf
          · rw [dictRemove_ne _ _ _ hvv0] at hbuf
            exact hbufs v buf hbuf
      have houts2 : ∀ p ∈ out ++ [(v0, buf0)],
          p.2 ≠ [] ∧ ∀ y ∈ p.2, y.verb = p.1 := by
        intro p hp
        rcases List.mem_append.mp hp with h | h
        · exact houts p h
        · simp only [List.mem_singleton] at h
          rw [h]
          exact ⟨hbuf0ne, hbuf0hom⟩
      have horder2 : ∀ v : Verb,
          withVerb v (groupActions (out ++ [(v0, buf0)])) ++
            ((dictInsertAppend (dictRemove groups v0) x.verb x) v).getD [] =
          withVerb v (pre ++ [x]) := by
        intro v
        rw [groupActions_append, groupActions_single, withVerb_append,
          withVerb_append]
        by_cases hvx : v = x.verb
        · subst hvx
          have ho := horder x.verb
          rw [hgx] at ho
          simp only [Option.getD_none, List.append_nil] at ho
          rw [hgetd, withVerb_singleton_self,
            withVerb_nothing x.verb buf0
              (fun y hy => by rw [hbuf0hom y hy]; exact hv0x),
            List.append_nil, ho]
        · by_cases hvv0 : v = v0
          · subst hvv0
            have ho := horder v
            rw [hbuf0] at ho
            simp only [Option.getD_some] at ho
            rw [withVerb_all v buf0 hbuf0hom,
              withVerb_singleton_ne v x hx0,
              dictInsertAppend_ne _ _ _ v hv0x, dictRemove_same]
            simp only [Option.getD_none, List.append_nil]
            exact ho
          · have ho := horder v
            rw [withVerb_nothing v buf0
                (fun y hy => by rw [hbuf0hom y hy]; exact fun hh => hvv0 hh.symm),
              withVerb_singleton_ne v x (fun hh => hvx hh.symm),
              dictInsertAppend_ne _ _ _ v hvx, dictRemove_ne _ _ _ hvv0,
              List.append_nil, List.append_nil]
            exact ho
      have hbound2 : ((rest ++ [x.verb]).length : Int) ≤ a + 1 := by
        have hb := hbound
        simp only [List.length_cons] at hb
        simp only [List.length_append, List.length_singleton]
        omega
      exact ⟨hnd2, hkeys2, hbufs2, houts2, horder2, hbound2⟩
    · -- fresh verb with room: just open it
      have hgx : groups x.verb = none := by
        by_cases h : (groups x.verb).isSome = true
        · exact absurd ((hkeys x.verb).mp h) hmem
        · exact Option.not_isSome_iff_eq_none.mp h
      have hflush2 : ¬a < (verbs.length : Int) := by
        push_cast at hflush
        omega
      have hstep : step a ⟨verbs, groups⟩ x =
          .ok ([], ⟨verbs ++ [x.verb], dictInsertAppend groups x.verb x⟩) := by
        simp [step, hmem, flushOldest, hflush2]
      have hgetd : (dictInsertAppend groups x.verb x x.verb).getD [] = [x] := by
        simp [dictInsertAppend_same, hgx]
      refine ⟨[], ⟨verbs ++ [x.verb], dictInsertAppend groups x.verb x⟩,
        hstep, ?_⟩
      rw [List.append_nil]
      have hnd2 : (verbs ++ [x.verb]).Nodup := by
        rw [List.nodup_append]
        exact ⟨hnd, List.nodup_singleton _,
          fun b hb hb' => hmem ((List.mem_singleton.mp hb') ▸ hb)⟩
      have hkeys2 : ∀ v : Verb,
          ((dictInsertAppend groups x.verb x) v).isSome = true ↔
            v ∈ verbs ++ [x.verb] := by
        intro v
        by_cases hvx : v = x.verb
        · subst hvx
          simp [dictInsertAppend_same]
        · rw [dictInsertAppend_ne _ _ _ v hvx, hkeys v]
          simp [hvx]
      have hbufs2 : ∀ v buf, (dictInsertAppend groups x.verb x) v = some buf →
          buf ≠ [] ∧ ∀ y ∈ buf, y.verb = v := by
        intro v buf hbuf
        by_cases hvx : v = x.verb
        · subst hvx
          rw [dictInsertAppend_same, hgx] at hbuf
          simp only [Option.getD_none, List.nil_append,
            Option.some.injEq] at hbuf
          subst hbuf
          refine ⟨by simp, ?_⟩
          intro y hy
          simp at hy
          rw [hy]
        · rw [dictInsertAppend_ne _ _ _ v hvx] at hbuf
          exact hbufs v buf hbuf
      have horder2 : ∀ v : Verb,
          withVerb v (groupActions out) ++
            ((dictInsertAppend groups x.verb x) v).getD [] =
          withVerb v (pre ++ [x]) := by
        intro v
        rw [withVerb_append]
        by_cases hvx : v = x.verb
        · subst hvx
          have ho := horder x.verb
          rw [hgx] at ho
          simp only [Option.getD_none, List.append_nil] at ho
          rw [hgetd, withVerb_singleton_self, ho]
        · rw [dictInsertAppend_ne _ _ _ v hvx,
            withVerb_singleton_ne v x (fun hh => hvx hh.symm),
            List.append_nil]
          exact horder v
      have hbound2 : ((verbs ++ [x.verb]).length : Int) ≤ a + 1 := by
        simp only [List.length_append, List.length_singleton]
        simp only [not_lt] at hflush
        omega
      exact ⟨hnd2, hkeys2, hbufs2, houts, horder2, hbound2⟩


theorem runLoop_inv (a : Int) (ha : 0 ≤ a) (acts : List Action) :
    ∀ (pre : List Action) (out : List Group) (s : GState), Inv a pre out s →
      ∃ o2 s2, runLoop a acts s = .ok (o2, s2) ∧
        Inv a (pre ++ acts) (out ++ o2) s2 := by
  induction acts with
  | nil =>
    intro pre out s h
    exact ⟨[], s, rfl, by simpa using h⟩
  | cons x xs ih =>
    intro pre out s h
    obtain ⟨o1, s1, hstep, h1⟩ := step_inv a ha pre out s x h
    obtain ⟨o2, s2, hrun, h2⟩ := ih (pre ++ [x]) (out ++ o1) s1 h1
    refine ⟨o1 ++ o2, s2, ?_, ?_⟩
    · simp [runLoop, hstep, hrun]
    · simpa [List.append_assoc] using h2

theorem finalFlush_eq (g : Verb → Option (List Action)) :
    ∀ vs : List Verb, (∀ v ∈ vs, (g v).isSome = true) →
      finalFlush g vs = .ok (vs.map fun v => (v, (g v).getD [])) := by
  intro vs
  induction vs with
  | nil => intro; rfl
  | cons v vs ih =>
    intro h
    obtain ⟨buf, hbuf⟩ := Option.isSome_iff_exists.mp (h v (by simp))
    have hrest := ih (fun w hw => h w (List.mem_cons_of_mem v hw))
    simp [finalFlush, hbuf, hrest]

theorem flush_withVerb (g : Verb → Option (List Action)) :
    ∀ vs : List Verb, vs.Nodup →
      (∀ w ∈ vs, ∀ y ∈ (g w).getD [], y.verb = w) →
      ∀ v, withVerb v (groupActions (vs.map fun w => (w, (g w).getD []))) =
        if v ∈ vs then (g v).getD [] else [] := by
  intro vs
  induction vs with
  | nil =>
    intro _ _ v
    simp [groupActions, withVerb]
  | cons w ws ih =>
    intro hnd hhom v
    have hrest := ih (List.nodup_cons.mp hnd).2
      (fun u hu => hhom u (List.mem_cons_of_mem w hu)) v
    have hsplit : groupActions ((w :: ws).map fun u => (u, (g u).getD [])) =
        (g w).getD [] ++ groupActions (ws.map fun u => (u, (g u).getD [])) := by
      simp [groupActions]
    rw [hsplit, withVerb_append, hrest]
    by_cases hv : v = w
    · subst hv
      rw [withVerb_all v ((g v).getD []) (hhom v (by simp))]
      have hvws : v ∉ ws := (List.nodup_cons.mp hnd).1
      simp [hvws]
    · rw [withVerb_nothing v ((g w).getD [])
        (fun y hy => by rw [hhom w (by simp) y hy]; exact fun hh => hv hh.symm)]
      simp [List.mem_cons, hv]

theorem group_verbs_spec (acts : List Action) (a : Int) (ha : 0 ≤ a) :
    ∃ gs, group_verbs acts a = .ok gs ∧
      (∀ p ∈ gs, p.2 ≠ [] ∧ ∀ x ∈ p.2, x.verb = p.1) ∧
      (∀ v, withVerb v (groupActions gs) = withVerb v acts) ∧
      (groupActions gs).Perm acts := by
  obtain ⟨o, s, hrun, hinv⟩ :=
    runLoop_inv a ha acts [] [] initState (inv_init a ha)
  rw [List.nil_append, List.nil_append] at hinv
  have hflush := finalFlush_eq s.groups s.verbs
    (fun v hv => (hinv.keys v).mpr hv)
  have hgv : group_verbs acts a =
      .ok (o ++ s.verbs.map fun v => (v, (s.groups v).getD [])) := by
    simp [group_verbs, consume, hrun, hflush]
  have hhomflush : ∀ w ∈ s.verbs, ∀ y ∈ (s.groups w).getD [], y.verb = w := by
    intro w hw y hy
    obtain ⟨buf, hbuf⟩ := Option.isSome_iff_exists.mp ((hinv.keys w).mpr hw)
    rw [hbuf] at hy
    exact (hinv.bufs w buf hbuf).2 y (by simpa using hy)
  have hordertot : ∀ v, withVerb v
      (groupActions (o ++ s.verbs.map fun w => (w, (s.groups w).getD []))) =
      withVerb v acts := by
    intro v
    rw [groupActions_append, withVerb_append,
      flush_withVerb s.groups s.verbs hinv.nodup hhomflush v]
    have hbufv : (if v ∈ s.verbs then (s.groups v).getD [] else [])
        = (s.groups v).getD [] := by
      by_cases hv : v ∈ s.verbs
      · simp [hv]
      · have hnone : s.groups v = none := by
          by_cases h : (s.groups v).isSome = true
          · exact absurd ((hinv.keys v).mp h) hv
          · exact Option.not_isSome_iff_eq_none.mp h
        simp [hv, hnone]
    rw [hbufv]
    exact hinv.order v
  refine ⟨_, hgv, ?_, hordertot, ?_⟩
  · intro p hp
    rcases List.mem_append.mp hp with h | h
    · exact hinv.outs p h
    · obtain ⟨w, hw, hpw⟩ := List.mem_map.mp h
      obtain ⟨buf, hbuf⟩ := Option.isSome_iff_exists.mp ((hinv.keys w).mpr hw)
      rw [← hpw]
      refine ⟨?_, ?_⟩
      · simp only [hbuf, Option.getD_some]
        exact (hinv.bufs w buf hbuf).1
      · intro y hy
        exact hhomflush w hw y hy
  · rw [List.perm_iff_count]
    intro x
    have hv := hordertot x.verb
    have hcount : ∀ l : List Action, List.count x (withVerb x.verb l)
        = List.count x l := by
      intro l
      apply List.count_filter
      simp
    rw [← hcount, ← hcount acts, hv]

theorem withVerb_cons_pos (v : Verb) (x : Action) (xs : List Action)
    (h : x.verb = v) : withVerb v (x :: xs) = x :: withVerb v xs := by
  simp [withVerb, List.filter_cons, h]

theorem withVerb_cons_neg (v : Verb) (x : Action) (xs : List Action)
    (h : x.verb ≠ v) : withVerb v (x :: xs) = withVerb v xs := by
  simp [withVerb, List.filter_cons, h]

theorem verbOrderFrom_length_mono (acts : List Action) :
    ∀ vs : List Verb, vs.length ≤ (verbOrderFrom vs acts).length := by
  induction acts with
  | nil =>
    intro vs
    simp [verbOrderFrom]
  | cons x xs ih =>
    intro vs
    simp only [verbOrderFrom]
    by_cases h : x.verb ∈ vs
    · simpa [h] using ih vs
    · have h2 := ih (vs ++ [x.verb])
      simp only [h, if_false, List.length_append, List.length_singleton] at h2 ⊢
      omega

theorem verbOrderFrom_nodup (acts : List Action) :
    ∀ vs : List Verb, vs.Nodup → (verbOrderFrom vs acts).Nodup := by
  induction acts with
  | nil =>
    intro vs h
    simpa [verbOrderFrom] using h
  | cons x xs ih =>
    intro vs h
    simp only [verbOrderFrom]
    by_cases hx : x.verb ∈ vs
    · simpa [hx] using ih vs h
    · have hnd : (vs ++ [x.verb]).Nodup := by
        rw [List.nodup_append]
        exact ⟨h, List.nodup_singleton _,
          fun b hb hb' => hx ((List.mem_singleton.mp hb') ▸ hb)⟩
      simpa [hx] using ih _ hnd

theorem consume_no_flush (a : Int) :
    ∀ (acts : List Action) (s : GState),
      (∀ v : Verb, (s.groups v).isSome = true ↔ v ∈ s.verbs) →
      ((verbOrderFrom s.verbs acts).length : Int) ≤ a + 1 →
      consume a acts s = .ok ((verbOrderFrom s.verbs acts).map
        fun v => (v, (s.groups v).getD [] ++ withVerb v acts)) := by
  intro acts
  induction acts with
  | nil =>
    intro s hkeys _
    rw [consume_nil,
      finalFlush_eq s.groups s.verbs (fun v hv => (hkeys v).mpr hv)]
    simp [verbOrderFrom, withVerb]
  | cons x xs ih =>
    intro s hkeys hb
    obtain ⟨verbs, groups⟩ := s
    have hkeys1 : ∀ v : Verb, (groups v).isSome = true ↔ v ∈ verbs := hkeys
    have hb1 : ((verbOrderFrom verbs (x :: xs)).length : Int) ≤ a + 1 := hb
    rw [consume_cons]
    by_cases hmem : x.verb ∈ verbs
    · have hstep : step a ⟨verbs, groups⟩ x =
          .ok ([], ⟨verbs, dictInsertAppend groups x.verb x⟩) := by
        simp [step, hmem]
      rw [hstep]
      dsimp only
      have hkeys2 : ∀ v : Verb,
          ((dictInsertAppend groups x.verb x) v).isSome = true ↔ v ∈ verbs := by
        intro v
        by_cases hv : v = x.verb
        · subst hv
          simp only [dictInsertAppend_same]
          simpa using hmem
        · rw [dictInsertAppend_ne groups x.verb x v hv]
          exact hkeys1 v
      have hb2 : ((verbOrderFrom verbs xs).length : Int) ≤ a + 1 := by
        simpa [verbOrderFrom, hmem] using hb1
      have hih : consume a xs ⟨verbs, dictInsertAppend groups x.verb x⟩ =
          .ok ((verbOrderFrom verbs xs).map fun v =>
            (v, ((dictInsertAppend groups x.verb x) v).getD [] ++
              withVerb v xs)) :=
        ih ⟨verbs, dictInsertAppend groups x.verb x⟩ hkeys2 hb2
      rw [hih]
      have hfun : (fun v => (v, ((dictInsertAppend groups x.verb x) v).getD []
            ++ withVerb v xs)) =
          (fun v : Verb => (v, (groups v).getD [] ++ withVerb v (x :: xs))) := by
        funext v
        by_cases hv : v = x.verb
        · subst hv
          rw [dictInsertAppend_same, withVerb_cons_pos x.verb x xs rfl]
          simp
        · rw [dictInsertAppend_ne groups x.verb x v hv,
            withVerb_cons_neg v x xs (fun hh => hv hh.symm)]
      rw [hfun]
      have hord : verbOrderFrom verbs (x :: xs) = verbOrderFrom verbs xs := by
        simp [verbOrderFrom, hmem]
      rw [hord]
      simp [Except.map]
    · have hb2 : ((verbOrderFrom (verbs ++ [x.verb]) xs).length : Int)
          ≤ a + 1 := by
        simpa [verbOrderFrom, hmem] using hb1
      have hlen := verbOrderFrom_length_mono xs (verbs ++ [x.verb])
      have hnoflush : ¬ (verbs.length : Int) > a := by
        simp only [List.length_append, List.length_singleton] at hlen
        omega
      have hgx : groups x.verb = none := by
        by_cases h : (groups x.verb).isSome = true
        · exact absurd ((hkeys1 x.verb).mp h) hmem
        · exact Option.not_isSome_iff_eq_none.mp h
      have hstep : step a ⟨verbs, groups⟩ x =
          .ok ([], ⟨verbs ++ [x.verb], dictInsertAppend groups x.verb x⟩) := by
        simp [step, hmem, flushOldest, hnoflush]
      rw [hstep]
      dsimp only
      have hkeys2 : ∀ v : Verb,
          ((dictInsertAppend groups x.verb x) v).isSome = true ↔
            v ∈ verbs ++ [x.verb] := by
        intro v
        by_cases hv : v = x.verb
        · subst hv
          simp [dictInsertAppend_same]
        · rw [dictInsertAppend_ne _ _ _ v hv, hkeys1 v]
          simp [hv]
      have hih : consume a xs ⟨verbs ++ [x.verb],
            dictInsertAppend groups x.verb x⟩ =
          .ok ((verbOrderFrom (verbs ++ [x.verb]) xs).map fun v =>
            (v, ((dictInsertAppend groups x.verb x) v).getD [] ++
              withVerb v xs)) :=
        ih ⟨verbs ++ [x.verb], dictInsertAppend groups x.verb x⟩ hkeys2 hb2
      rw [hih]
      have hfun : (fun v => (v, ((dictInsertAppend groups x.verb x) v).getD []
            ++ withVerb v xs)) =
          (fun v : Verb => (v, (groups v).getD [] ++ withVerb v (x :: xs))) := by
        funext v
        by_cases hv : v = x.verb
        · subst hv
          rw [dictInsertAppend_same, hgx, withVerb_cons_pos x.verb x xs rfl]
          simp
        · rw [dictInsertAppend_ne groups x.verb x v hv,
            withVerb_cons_neg v x xs (fun hh => hv hh.symm)]
      rw [hfun]
      have hord : verbOrderFrom verbs (x :: xs)
          = verbOrderFrom (verbs ++ [x.verb]) xs := by
        simp [verbOrderFrom, hmem]
      rw [hord]
      simp [Except.map]

/-! ### The claims -/

/-- C1: for every finite input sequence and every aggressiveness ≥ 0, the
concatenation of the action lists of all groups emitted by `group_verbs` is
a permutation of the input: every action appears exactly once, none dropped,
none duplicated. -/
theorem group_verbs_completeness (acts : List Action) (a : Int)
    (gs : List Group) (ha : 0 ≤ a) (h : group_verbs acts a = .ok gs) :
    (groupActions gs).Perm acts := by
  obtain ⟨gs2, hgs2, _, _, hperm⟩ := group_verbs_spec acts a ha
  rw [hgs2] at h
  simp only [Except.ok.injEq] at h
  subst h
  exact hperm

/-- Witness for C1 at the documented 9-action example with aggressiveness 1. -/
theorem group_verbs_completeness_witness :
    (groupActions [("post", [post1]), ("update", [update1, update2, update3]),
      ("remove", [remove1, remove2]), ("share", [share1, share2]),
      ("update", [update4])]).Perm exampleNine :=
  group_verbs_completeness exampleNine 1 _ (by decide) rfl

/-- C2: for every input and every aggressiveness ≥ 0, each emitted group is
homogeneous (all its actions carry the group's verb), and for each verb the
actions of the concatenated output carrying that verb are exactly the input
actions of that verb in input order (so order is preserved inside a group
and across same-verb groups in emission order). -/
theorem group_verbs_homogeneous_ordered (acts : List Action) (a : Int)
    (gs : List Group) (ha : 0 ≤ a) (h : group_verbs acts a = .ok gs) :
    (∀ p ∈ gs, ∀ x ∈ p.2, x.verb = p.1) ∧
    (∀ v, withVerb v (groupActions gs) = withVerb v acts) := by
  obtain ⟨gs2, hgs2, hhom, horder, _⟩ := group_verbs_spec acts a ha
  rw [hgs2] at h
  simp only [Except.ok.injEq] at h
  subst h
  exact ⟨fun p hp => (hhom p hp).2, horder⟩

/-- Witness for C2 at the documented 9-action example with aggressiveness 1. -/
theorem group_verbs_homogeneous_ordered_witness :
    (∀ p ∈ [("post", [post1]), ("update", [update1, update2, update3]),
      ("remove", [remove1, remove2]), ("share", [share1, share2]),
      ("update", [update4])], ∀ x ∈ p.2, Action.verb x = p.1) ∧
    (∀ v, withVerb v (groupActions [("post", [post1]),
      ("update", [update1, update2, update3]), ("remove", [remove1, remove2]),
      ("share", [share1, share2]), ("update", [update4])])
      = withVerb v exampleNine) :=
  group_verbs_homogeneous_ordered exampleNine 1 _ (by decide) rfl

/-- C3: the documented 9-action input grouped with aggressiveness 1 yields
exactly the five documented groups, in order: post(1), update(3), remove(2),
share(2), update(1). -/
theorem group_verbs_example_aggressiveness_one :
    group_verbs exampleNine 1 =
      .ok [("post", [post1]),
           ("update", [update1, update2, update3]),
           ("remove", [remove1, remove2]),
           ("share", [share1, share2]),
           ("update", [update4])] := rfl

/-- C4: with aggressiveness 0, `group_verbs` emits exactly the maximal
contiguous runs of equal verbs of the input, in input order; in particular
`[A,A,B,B,A]` yields the three groups `(A,2), (B,2), (A,1)`. -/
theorem group_verbs_zero_contiguous_runs :
    (∀ acts : List Action, group_verbs acts 0 = .ok (verbRuns acts)) ∧
    group_verbs [⟨"A", 1⟩, ⟨"A", 2⟩, ⟨"B", 1⟩, ⟨"B", 2⟩, ⟨"A", 3⟩] 0 =
      .ok [("A", [⟨"A", 1⟩, ⟨"A", 2⟩]), ("B", [⟨"B", 1⟩, ⟨"B", 2⟩]),
           ("A", [⟨"A", 3⟩])] := by
  constructor
  · intro acts
    cases acts with
    | nil => rfl
    | cons x xs =>
      show consume 0 (x :: xs) initState = _
      rw [consume_cons]
      have hstep : step 0 initState x =
          .ok ([], ⟨[x.verb], dictInsertAppend (fun _ => none) x.verb x⟩) := by
        simp [step, initState, flushOldest]
      rw [hstep]
      dsimp only
      rw [consume_zero_runs xs x.verb [x]
        (dictInsertAppend (fun _ => none) x.verb x)
        (by simp [dictInsertAppend])
        (fun k hk => dictInsertAppend_ne _ _ _ k hk)]
      simp [verbRuns, Except.map]
  · rfl

/-- C5: the documented 9-action input grouped with aggressiveness 2 yields
exactly the four documented groups, in order: post(1), update(4), remove(2),
share(2). -/
theorem group_verbs_example_aggressiveness_two :
    group_verbs exampleNine 2 =
      .ok [("post", [post1]),
           ("update", [update1, update2, update3, update4]),
           ("remove", [remove1, remove2]),
           ("share", [share1, share2])] := rfl

/-- C6 counterexample: with a negative aggressiveness the code does not fail
with the specification's InvalidArgument error: on the empty input it
succeeds with zero groups, and on a nonempty input it raises IndexError
(pop from the empty open-verb list) instead. -/
theorem group_verbs_negative_not_invalidArgument :
    group_verbs [] (-1) = .ok [] ∧
    group_verbs [post1] (-1) = .error PyErr.indexError ∧
    group_verbs [post1] (-1) ≠ .error PyErr.invalidArgument := by
  refine ⟨rfl, rfl, ?_⟩
  intro h
  rw [show group_verbs [post1] (-1) = .error PyErr.indexError from rfl] at h
  simp at h

/-- C6 (amended): `group_verbs` performs no argument validation; with a
negative aggressiveness the first loop iteration of any nonempty input pops
from the empty open-verb list and raises IndexError, while the empty input
yields zero groups without error. -/
theorem group_verbs_negative_raises (acts : List Action) (a : Int)
    (hneg : a < 0) :
    (acts = [] → group_verbs acts a = .ok []) ∧
    (acts ≠ [] → group_verbs acts a = .error PyErr.indexError) := by
  constructor
  · rintro rfl
    rfl
  · intro hne
    obtain ⟨x, xs, rfl⟩ := List.exists_cons_of_ne_nil hne
    show consume a (x :: xs) initState = _
    rw [consume_cons]
    have hstep : step a initState x = .error PyErr.indexError := by
      simp [step, initState, flushOldest, hneg]
    rw [hstep]

/-- Witness for the amended C6 at the one-action input with aggressiveness -1. -/
theorem group_verbs_negative_raises_witness :
    (([post1] : List Action) = [] → group_verbs [post1] (-1) = .ok []) ∧
    (([post1] : List Action) ≠ [] →
      group_verbs [post1] (-1) = .error PyErr.indexError) :=
  group_verbs_negative_raises [post1] (-1) (by decide)

/-- C7: for every input and aggressiveness ≥ 0, after any processed prefix of
the traversal the open-verb list never exceeds `aggressiveness + 1` entries. -/
theorem group_verbs_open_verbs_bounded (acts : List Action) (a : Int)
    (out : List Group) (s : GState) (ha : 0 ≤ a)
    (h : runLoop a acts initState = .ok (out, s)) :
    (s.verbs.length : Int) ≤ a + 1 := by
  obtain ⟨o2, s2, hrun, hinv⟩ :=
    runLoop_inv a ha acts [] [] initState (inv_init a ha)
  rw [hrun] at h
  simp only [Except.ok.injEq, Prod.mk.injEq] at h
  obtain ⟨-, h2⟩ := h
  subst h2
  exact hinv.bound

/-- Witness for C7 after processing one action with aggressiveness 0. -/
theorem group_verbs_open_verbs_bounded_witness :
    (((⟨["post"], dictInsertAppend (fun _ => none) "post" post1⟩ :
      GState).verbs.length : Int)) ≤ 0 + 1 :=
  group_verbs_open_verbs_bounded [post1] 0 []
    ⟨["post"], dictInsertAppend (fun _ => none) "post" post1⟩ (by decide) rfl

/-- C8: for every well-formed input (aggressiveness ≥ 0) the traversal never
raises — in particular the flush branch never pops an empty open-verb list —
the empty input yields zero groups, and a one-action input yields exactly one
group holding exactly that action. -/
theorem group_verbs_total_on_wellformed (a : Int) (ha : 0 ≤ a) :
    (∀ acts : List Action, ∃ gs, group_verbs acts a = .ok gs) ∧
    group_verbs [] a = .ok [] ∧
    (∀ x : Action, group_verbs [x] a = .ok [(x.verb, [x])]) := by
  refine ⟨?_, rfl, ?_⟩
  · intro acts
    obtain ⟨gs, hgs, _⟩ := group_verbs_spec acts a ha
    exact ⟨gs, hgs⟩
  · intro x
    show consume a [x] initState = _
    rw [consume_cons]
    have hna : ¬ a < 0 := by omega
    have hstep : step a initState x =
        .ok ([], ⟨[x.verb], dictInsertAppend (fun _ => none) x.verb x⟩) := by
      simp [step, initState, flushOldest, hna]
    rw [hstep]
    dsimp only
    rw [consume_nil]
    simp [finalFlush, dictInsertAppend, Except.map]

/-- Witness for C8 at aggressiveness 2. -/
theorem group_verbs_total_on_wellformed_witness :
    (∀ acts : List Action, ∃ gs, group_verbs acts 2 = .ok gs) ∧
    group_verbs [] 2 = .ok [] ∧
    (∀ x : Action, group_verbs [x] 2 = .ok [(x.verb, [x])]) :=
  group_verbs_total_on_wellformed 2 (by decide)

/-- C9: for every input and aggressiveness ≥ 0, every emitted group has a
non-empty action list: a verb's buffer receives its first action when the
verb is opened, so no flush ever emits an empty group. -/
theorem group_verbs_groups_nonempty (acts : List Action) (a : Int)
    (gs : List Group) (ha : 0 ≤ a) (h : group_verbs acts a = .ok gs) :
    ∀ p ∈ gs, p.2 ≠ [] := by
  obtain ⟨gs2, hgs2, hhom, _, _⟩ := group_verbs_spec acts a ha
  rw [hgs2] at h
  simp only [Except.ok.injEq] at h
  subst h
  exact fun p hp => (hhom p hp).1

/-- Witness for C9: the last group emitted for the documented 9-action
example with aggressiveness 1 is non-empty. -/
theorem group_verbs_groups_nonempty_witness :
    (("update", [update4]) : Group).2 ≠ ([] : List Action) :=
  group_verbs_groups_nonempty exampleNine 1
    [("post", [post1]), ("update", [update1, update2, update3]),
     ("remove", [remove1, remove2]), ("share", [share1, share2]),
     ("update", [update4])] (by decide) rfl
    ("update", [update4]) (by decide)

/-- C10: if the aggressiveness is at least the number of distinct verbs of
the input minus one, no mid-stream flush occurs: `group_verbs` emits exactly
one group per distinct verb, ordered by first appearance, each group holding
all of that verb's actions in input order. -/
theorem group_verbs_high_aggressiveness (acts : List Action) (a : Int)
    (ha : 0 ≤ a) (hagg : ((verbOrder acts).length : Int) - 1 ≤ a) :
    group_verbs acts a =
      .ok ((verbOrder acts).map fun v => (v, withVerb v acts)) ∧
    (verbOrder acts).Nodup := by
  constructor
  · have hb : ((verbOrderFrom [] acts).length : Int) ≤ a + 1 := by
      unfold verbOrder at hagg
      omega
    have h := consume_no_flush a acts initState
      (by intro v; simp [initState]) hb
    have h2 : group_verbs acts a =
        .ok ((verbOrder acts).map fun v =>
          (v, ([] : List Action) ++ withVerb v acts)) := h
    simpa using h2
  · exact verbOrderFrom_nodup acts [] List.nodup_nil

/-- Witness for C10 at the documented 9-action example (4 distinct verbs)
with aggressiveness 3. -/
theorem group_verbs_high_aggressiveness_witness :
    group_verbs exampleNine 3 =
      .ok ((verbOrder exampleNine).map fun v => (v, withVerb v exampleNine)) ∧
    (verbOrder exampleNine).Nodup :=
  group_verbs_high_aggressiveness exampleNine 3 (by decide) (by decide)

end Actstream



